import Mathlib

/-!
Verification of `examples/ggwave-large-message/ggwave_large_message.py`.

Python strings are modelled as `List Char` (sequences of Unicode code points);
`s.encode('utf-8')`'s length is the sum of the code points' UTF-8 sizes.
Line numbers in doc comments refer to `ggwave_large_message.py`.
-/

namespace GgwaveLargeMessage

/-- UTF-8 byte length of a string modelled as a list of code points:
the length of Python's `s.encode('utf-8')`. -/
def utf8Len (l : List Char) : Nat := (l.map Char.utf8Size).sum

/-- `CHUNK_SIZE = 600` (line 22). -/
def CHUNK_SIZE : Nat := 600

/-- `message.replace('\n', ' ')` (line 43): every newline becomes a space. -/
def replaceNewlines (m : List Char) : List Char :=
  m.map (fun c => if c = '\n' then ' ' else c)

/-- The inner `while` loop of `split_message` (lines 53-54): keep removing the
last character while the UTF-8 byte length exceeds `chunk_size`. -/
def trimChunk (l : List Char) (chunk_size : Nat) : List Char :=
  if h : utf8Len l ≤ chunk_size then l
  else trimChunk l.dropLast chunk_size
termination_by l.length
decreasing_by
  have hne : l ≠ [] := by
    intro h0
    exact h (by simp [h0, utf8Len])
  cases l with
  | nil => exact absurd rfl hne
  | cons a as => simp [List.length_dropLast]

/-- `potential_chunk` of one outer-loop iteration (lines 50-54): the next
`chunk_size`-character slice of the remaining message, byte-trimmed. -/
def potentialChunk (chunk_size : Nat) (rest : List Char) : List Char :=
  trimChunk (rest.take chunk_size) chunk_size

/-- The outer `while` loop of `split_message` (lines 48-62), acting on the part
of the message from `current_pos` on: take the next `chunk_size`-character
slice, byte-trim it; append it and advance by its length when non-empty,
otherwise skip one character. -/
def splitGo (chunk_size : Nat) : List Char → List (List Char)
  | [] => []
  | c :: rs =>
    if hp : (potentialChunk chunk_size (c :: rs)).isEmpty then
      splitGo chunk_size rs
    else
      potentialChunk chunk_size (c :: rs) ::
        splitGo chunk_size ((c :: rs).drop (potentialChunk chunk_size (c :: rs)).length)
termination_by l => l.length
decreasing_by
  · simp
  · simp only [List.length_drop, List.length_cons]
    have hlen : 0 < (potentialChunk chunk_size (c :: rs)).length := by
      cases hpc : potentialChunk chunk_size (c :: rs) with
      | nil => rw [hpc] at hp; simp at hp
      | cons x xs => simp
    omega

/-- `split_message` (lines 40-64): newline-normalize, then greedily split. -/
def split_message (message : List Char) (chunk_size : Nat := CHUNK_SIZE) :
    List (List Char) :=
  splitGo chunk_size (replaceNewlines message)

theorem utf8Len_nil : utf8Len [] = 0 := rfl

theorem utf8Len_cons (c : Char) (l : List Char) :
    utf8Len (c :: l) = c.utf8Size + utf8Len l := by
  simp [utf8Len]

theorem mem_le_utf8Len {a : Char} {l : List Char} (h : a ∈ l) :
    a.utf8Size ≤ utf8Len l := by
  induction l with
  | nil => cases h
  | cons b bs ih =>
    rw [utf8Len_cons]
    rcases List.mem_cons.mp h with rfl | hb
    · exact Nat.le_add_right _ _
    · exact le_trans (ih hb) (Nat.le_add_left _ _)

/-- The trimming loop's postcondition: the result fits in the byte limit. -/
theorem trimChunk_le (l : List Char) (n : Nat) : utf8Len (trimChunk l n) ≤ n := by
  induction l, n using trimChunk.induct with
  | case1 l n h => rw [trimChunk]; simp only [h, dite_true]
  | case2 l n h ih => rw [trimChunk]; simp only [h, dite_false]; exact ih

/-- The trimming loop only removes characters from the end: its result is an
initial segment of its input. -/
theorem trimChunk_take (l : List Char) (n : Nat) :
    ∃ k, k ≤ l.length ∧ trimChunk l n = l.take k := by
  induction l, n using trimChunk.induct with
  | case1 l n h =>
    exact ⟨l.length, Nat.le_refl _, by rw [trimChunk]; simp [h]⟩
  | case2 l n h ih =>
    obtain ⟨k, hk, he⟩ := ih
    refine ⟨k, ?_, ?_⟩
    · calc k ≤ l.dropLast.length := hk
        _ ≤ l.length := by rw [List.length_dropLast]; omega
    · rw [trimChunk]
      simp only [h, dite_false]
      rw [he, List.dropLast_eq_take, List.take_take]
      have : min k (l.length - 1) = k := by
        rw [List.length_dropLast] at hk; omega
      rw [this]

/-- The trimming loop returns the empty string exactly when the first
character of its (non-empty) input alone exceeds the byte limit. -/
theorem trimChunk_nil_iff :
    ∀ (l : List Char) (n : Nat) (x : Char) (xs : List Char), l = x :: xs →
      (trimChunk l n = [] ↔ n < x.utf8Size) := by
  intro l n
  induction l, n using trimChunk.induct with
  | case1 l n h =>
    intro x xs hl
    subst hl
    rw [trimChunk]
    simp only [h, dite_true]
    constructor
    · intro hnil; cases hnil
    · intro hlt
      rw [utf8Len_cons] at h
      omega
  | case2 l n h ih =>
    intro x xs hl
    subst hl
    rw [trimChunk]
    simp only [h, dite_false]
    cases xs with
    | nil =>
      simp only [List.dropLast_single]
      rw [trimChunk]
      simp only [utf8Len_nil, Nat.zero_le, dite_true]
      rw [utf8Len_cons, utf8Len_nil] at h
      constructor
      · intro _; omega
      · intro _; trivial
    | cons y ys =>
      have hd : (x :: y :: ys).dropLast = x :: (y :: ys).dropLast := rfl
      rw [hd] at ih ⊢
      exact ih x (y :: ys).dropLast rfl

/-- `potential_chunk` is empty exactly when the first remaining character
alone exceeds the byte limit. -/
theorem potentialChunk_nil_iff (n : Nat) (c : Char) (rs : List Char) :
    potentialChunk n (c :: rs) = [] ↔ n < c.utf8Size := by
  unfold potentialChunk
  cases n with
  | zero =>
    rw [List.take_zero, trimChunk]
    simp [utf8Len_nil, Char.utf8Size_pos]
  | succ m =>
    rw [List.take_succ_cons]
    exact trimChunk_nil_iff _ _ c (rs.take m) rfl

/-- `potential_chunk` is an initial segment of the remaining message, of
length exactly its own length. -/
theorem potentialChunk_take (n : Nat) (rest : List Char) :
    ∃ j, j ≤ rest.length ∧ potentialChunk n rest = rest.take j ∧
      (potentialChunk n rest).length = j := by
  obtain ⟨k, hk, he⟩ := trimChunk_take (rest.take n) n
  refine ⟨min k n, ?_, ?_, ?_⟩
  · rw [List.length_take] at hk; omega
  · rw [potentialChunk, he, List.take_take]
  · rw [potentialChunk, he, List.take_take, List.length_take]
    rw [List.length_take] at hk
    omega

/-- C1 core: the concatenation of the chunks equals the remaining message
with every character whose UTF-8 byte size exceeds the limit dropped. -/
theorem splitGo_flatten (n : Nat) (rest : List Char) :
    (splitGo n rest).flatten = rest.filter (fun c => decide (c.utf8Size ≤ n)) := by
  induction rest using splitGo.induct with
  | chunk_size => exact n
  | case1 => simp [splitGo]
  | case2 c rs hp ih =>
    rw [splitGo]
    simp only [hp, dite_true]
    rw [ih]
    have hnil : potentialChunk n (c :: rs) = [] := List.isEmpty_iff.mp hp
    have hlt : n < c.utf8Size := (potentialChunk_nil_iff n c rs).mp hnil
    rw [List.filter_cons]
    have : decide (c.utf8Size ≤ n) = false := by
      simp only [decide_eq_false_iff_not]
      omega
    simp [this]
  | case3 c rs hp ih =>
    rw [splitGo]
    simp only [hp, Bool.false_eq_true, dite_false]
    rw [List.flatten_cons, ih]
    obtain ⟨j, hj, htake, hlen⟩ := potentialChunk_take n (c :: rs)
    have hsplit : (c :: rs) =
        potentialChunk n (c :: rs) ++ (c :: rs).drop (potentialChunk n (c :: rs)).length := by
      rw [hlen, htake]
      exact (List.take_append_drop j (c :: rs)).symm
    have hall : ∀ a ∈ potentialChunk n (c :: rs), decide (a.utf8Size ≤ n) = true := by
      intro a ha
      have h1 : a.utf8Size ≤ utf8Len (potentialChunk n (c :: rs)) := mem_le_utf8Len ha
      have h2 : utf8Len (potentialChunk n (c :: rs)) ≤ n := trimChunk_le _ _
      simp only [decide_eq_true_eq]
      omega
    conv_rhs => rw [hsplit]
    rw [List.filter_append, List.filter_eq_self.mpr hall]

/-- Every chunk produced by the splitting loop fits in the byte limit. -/
theorem splitGo_mem_le (n : Nat) (rest : List Char) (chunk : List Char)
    (h : chunk ∈ splitGo n rest) : utf8Len chunk ≤ n := by
  induction rest using splitGo.induct with
  | chunk_size => exact n
  | case1 => rw [splitGo] at h; cases h
  | case2 c rs hp ih =>
    rw [splitGo] at h
    simp only [hp, dite_true] at h
    exact ih h
  | case3 c rs hp ih =>
    rw [splitGo] at h
    simp only [hp, Bool.false_eq_true, dite_false] at h
    rcases List.mem_cons.mp h with rfl | hmem
    · exact trimChunk_le _ _
    · exact ih hmem

/-- The advance of `current_pos` in one iteration of the outer loop of
`split_message`: the length of the appended non-empty chunk (line 58), or one
when the candidate trims to empty (line 62). -/
def stepAdvance (chunk_size : Nat) (rest : List Char) : Nat :=
  if (potentialChunk chunk_size rest).isEmpty then 1
  else (potentialChunk chunk_size rest).length

/-- C1: for every message, concatenating the chunks returned by
`split_message` with the default limit 600 equals the message with every
newline replaced by a space, except that any single character whose UTF-8
byte length alone exceeds the limit is dropped from the concatenation. -/
theorem C1_split_message_concat (message : List Char) :
    (split_message message).flatten =
      (replaceNewlines message).filter (fun c => decide (c.utf8Size ≤ 600)) :=
  splitGo_flatten 600 (replaceNewlines message)

/-- C2: every chunk returned by `split_message` with chunk byte limit `L`
has UTF-8 byte length at most `L`. -/
theorem C2_chunk_byte_length_le (message : List Char) (L : Nat) (chunk : List Char)
    (h : chunk ∈ split_message message L) : utf8Len chunk ≤ L :=
  splitGo_mem_le L (replaceNewlines message) chunk h

/-- C2 witness: the first chunk of splitting "abc" at limit 2 obeys the bound. -/
theorem C2_chunk_byte_length_le_witness :
    ['a', 'b'] ∈ split_message ['a', 'b', 'c'] 2 ∧ utf8Len ['a', 'b'] ≤ 2 := by
  have hmem : ['a', 'b'] ∈ split_message ['a', 'b', 'c'] 2 := by
    simp +decide [split_message, replaceNewlines, splitGo, potentialChunk, trimChunk,
      utf8Len]
  exact ⟨hmem, C2_chunk_byte_length_le ['a', 'b', 'c'] 2 ['a', 'b'] hmem⟩

/-- C9: `split_message`'s outer loop makes strict progress on every iteration:
on a non-empty remaining message the position advances by at least one (by the
appended chunk's length, or by one on an oversized single character), the
remaining length strictly decreases, and the loop satisfies the corresponding
unfolding, so the recursion (hence the Python loop) terminates. -/
theorem C9_splitGo_progress (n : Nat) (rest : List Char) (h : rest ≠ []) :
    0 < stepAdvance n rest ∧
    (rest.drop (stepAdvance n rest)).length < rest.length ∧
    splitGo n rest =
      (if (potentialChunk n rest).isEmpty then [] else [potentialChunk n rest]) ++
        splitGo n (rest.drop (stepAdvance n rest)) := by
  cases rest with
  | nil => exact absurd rfl h
  | cons c rs =>
    by_cases hp : (potentialChunk n (c :: rs)).isEmpty
    · refine ⟨?_, ?_, ?_⟩
      · rw [stepAdvance, if_pos hp]; omega
      · rw [stepAdvance, if_pos hp]; simp
      · rw [stepAdvance, if_pos hp, if_pos hp, splitGo]
        simp only [hp, dite_true, List.drop_succ_cons, List.drop_zero,
          List.nil_append]
    · have hlen : 0 < (potentialChunk n (c :: rs)).length := by
        cases hpc : potentialChunk n (c :: rs) with
        | nil => rw [hpc] at hp; simp at hp
        | cons x xs => simp
      refine ⟨?_, ?_, ?_⟩
      · rw [stepAdvance, if_neg hp]; exact hlen
      · rw [stepAdvance, if_neg hp]; simp only [List.length_drop, List.length_cons]
        omega
      · rw [stepAdvance, if_neg hp, if_neg hp, splitGo]
        simp only [hp, Bool.false_eq_true, dite_false, List.singleton_append]

/-- C9 witness: progress at a concrete input. -/
theorem C9_splitGo_progress_witness :
    0 < stepAdvance 2 ['a', 'b', 'c'] ∧
    ((['a', 'b', 'c'] : List Char).drop (stepAdvance 2 ['a', 'b', 'c'])).length <
      (['a', 'b', 'c'] : List Char).length ∧
    splitGo 2 ['a', 'b', 'c'] =
      (if (potentialChunk 2 ['a', 'b', 'c']).isEmpty then []
        else [potentialChunk 2 ['a', 'b', 'c']]) ++
        splitGo 2 ((['a', 'b', 'c'] : List Char).drop (stepAdvance 2 ['a', 'b', 'c'])) :=
  C9_splitGo_progress 2 ['a', 'b', 'c'] (by decide)

/-! ### WAV model -/

/-- WAV format parameters as handled through Python's `wave` module: channel
count, bytes per sample, frame rate. The `wave` module recomputes the frame
count from the data actually written when the file is closed, so the frame
count is not part of the parameters here. -/
structure WavParams where
  nchannels : Nat
  sampwidth : Nat
  framerate : Nat
deriving DecidableEq, Repr

/-- A WAV file: format parameters plus the raw frame data bytes. -/
structure WavFile where
  params : WavParams
  data : List Nat
deriving DecidableEq, Repr

/-- Frame count of a WAV file: data length divided by the frame size
`nchannels * sampwidth`. -/
def WavFile.nframes (w : WavFile) : Nat :=
  w.data.length / (w.params.nchannels * w.params.sampwidth)

/-- `combine_wav_files` (lines 288-304): read every input file's frame data in
order, take the format parameters from the first file, and write the
concatenation of all frame payloads. With an empty input list `params` stays
`None` and `wf.setparams(None)` raises; the unhandled exception is modelled
as `none`. -/
def combine_wav_files (wav_files : List WavFile) : Option WavFile :=
  match wav_files with
  | [] => none
  | f :: rest => some ⟨f.params, ((f :: rest).map WavFile.data).flatten⟩

/-- Python `int()` applied to a (rational-valued) number: truncation toward
zero. -/
def pyInt (q : ℚ) : Int := if q < 0 then ⌈q⌉ else ⌊q⌋

/-- `create_silence_wav` (lines 218-226): `n_frames = int(duration_seconds *
sample_rate)` frames of `bytes(n_frames * sample_width)` zero bytes, written
mono (1 channel) at 2 bytes per sample. `bytes(n)` raises for negative `n`,
modelled as `none`. -/
def create_silence_wav (duration_seconds : ℚ) (sample_rate : Nat) : Option WavFile :=
  let n_frames : Int := pyInt (duration_seconds * sample_rate)
  if n_frames < 0 then none
  else some ⟨⟨1, 2, sample_rate⟩, List.replicate (n_frames.toNat * 2) 0⟩

/-! ### Float32-to-int16 conversion of the library strategy

Float32 samples and the multiplication by 32767 are modelled as exact
rationals; the counterexample input used below (the sample value 2) and its
product 65534 are exactly representable in float32, so no float32 rounding is
abstracted away at that input. -/

/-- Two's-complement wrap of an integer into the int16 range, as `np.int16`
behaves on an out-of-range conversion. -/
def int16Wrap (t : Int) : Int := (t + 32768) % 65536 - 32768

/-- One sample of `np.int16(waveform_float32 * 32767)` (line 180): multiply by
32767, truncate toward zero, wrap into the int16 range. No clamping occurs in
the source. -/
def sampleToInt16 (x : ℚ) : Int := int16Wrap (pyInt (x * 32767))

/-- Little-endian byte pair of an int16 value, as `ndarray.tobytes()` lays out
one `int16` sample. -/
def int16Bytes (v : Int) : List Nat :=
  [(v % 65536).toNat % 256, (v % 65536).toNat / 256]

/-- The WAV written by `generate_wav_for_chunk_with_module` (lines 177-190)
from the encoder's float32 waveform: every sample scaled by 32767 and cast to
int16 (line 180), written as mono 16-bit PCM at `sample_rate` (lines 186-190). -/
def module_wav (waveform : List ℚ) (sample_rate : Nat) : WavFile :=
  ⟨⟨1, 2, sample_rate⟩, (waveform.map (fun x => int16Bytes (sampleToInt16 x))).flatten⟩

/-- Stated from the spec's words, for comparison with `sampleToInt16`: the
conversion the spec describes, clamping/scaling each sample into the int16
range. -/
def sampleToInt16Clamped (x : ℚ) : Int :=
  max (-32768) (min 32767 (pyInt (x * 32767)))

/-- Stated from the spec's words, for comparison with `module_wav`: the WAV
the spec describes, with the clamping conversion. -/
def module_wav_clamped (waveform : List ℚ) (sample_rate : Nat) : WavFile :=
  ⟨⟨1, 2, sample_rate⟩,
    (waveform.map (fun x => int16Bytes (sampleToInt16Clamped x))).flatten⟩

/-! ### Encoding strategy dispatch -/

/-- The arguments of `generate_wav_for_chunk_with_binary` (line 83). The
Python function's signature has no timeout parameter. -/
structure BinaryStrategyCall where
  chunk : List Char
  output_file : List Char
  protocol : Nat
  volume : Nat
  sample_rate : Nat
  quiet : Bool
deriving DecidableEq, Repr

/-- The arguments of `generate_wav_for_chunk_with_module` (line 142). -/
structure ModuleStrategyCall where
  chunk : List Char
  output_file : List Char
  protocol : Nat
  volume : Nat
  sample_rate : Nat
  quiet : Bool
  timeout : Nat
deriving DecidableEq, Repr

/-- The timeout `subprocess.run` is invoked with in the binary strategy: the
literal `timeout=10` at line 112, independent of the call's arguments. -/
def BinaryStrategyCall.subprocess_timeout (_ : BinaryStrategyCall) : Nat := 10

/-- The number of seconds the module strategy arms `signal.alarm` with
(line 162): its `timeout` argument. -/
def ModuleStrategyCall.alarm_timeout (c : ModuleStrategyCall) : Nat := c.timeout

/-- `generate_wav_for_chunk` (lines 211-216): dispatch to the module strategy,
forwarding `timeout`, or to the binary strategy, which is called without a
timeout argument. -/
def generate_wav_for_chunk (use_ggwave_module : Bool) (chunk output_file : List Char)
    (protocol volume sample_rate : Nat) (quiet : Bool) (timeout : Nat) :
    ModuleStrategyCall ⊕ BinaryStrategyCall :=
  if use_ggwave_module then
    Sum.inl ⟨chunk, output_file, protocol, volume, sample_rate, quiet, timeout⟩
  else
    Sum.inr ⟨chunk, output_file, protocol, volume, sample_rate, quiet⟩

/-- The wall-clock timeout actually enforced on the external encoder
invocation of a dispatched call. -/
def enforced_timeout : ModuleStrategyCall ⊕ BinaryStrategyCall → Nat
  | Sum.inl m => m.alarm_timeout
  | Sum.inr b => b.subprocess_timeout

/-! ### Orchestration -/

/-- The interleaving loop of `process_large_message` (lines 347-351): append
each chunk file in order and, after every chunk file but the last, the
silence file. -/
def interleaved_files {α : Type} : List α → α → List α
  | [], _ => []
  | [f], _ => [f]
  | f :: g :: rest, s => f :: s :: interleaved_files (g :: rest) s

/-- The list of files `process_large_message` passes to `combine_wav_files`
(lines 342-357): interleaved with the silence file when pauses are requested
and there is more than one chunk, otherwise just the chunk files. -/
def files_to_combine {α : Type} (add_pauses : Bool) (chunk_files : List α)
    (silence_file : α) : List α :=
  if add_pauses ∧ 1 < chunk_files.length then
    interleaved_files chunk_files silence_file
  else chunk_files

/-- Outcome of `process_large_message`: a returned combined WAV (`success`),
a returned `False` after a chunk failed (`failure`), or an unhandled
exception propagating out of the function (`exception`). -/
inductive ProcessResult where
  | success : WavFile → ProcessResult
  | failure : ProcessResult
  | exception : ProcessResult
deriving DecidableEq, Repr

/-- The per-chunk encoding loop (lines 328-339): encode the chunks in order
and stop at the first failure, on which `process_large_message` returns
`False`. -/
def encode_all (encode : List Char → Option WavFile) :
    List (List Char) → Option (List WavFile)
  | [] => some []
  | c :: cs =>
    match encode c with
    | none => none
    | some w => (encode_all encode cs).map (fun ws => w :: ws)

/-- `process_large_message` (lines 306-357) up to the WAV-combination step,
with the per-chunk encoder a parameter and the silence file's content
abstracted as `pause_wav`: split the message, encode every chunk (abort on
the first failure), interleave with silence when requested, and combine.
`combine_wav_files` returning `none` models the exception raised by
`wf.setparams(None)`, which `process_large_message` does not catch. -/
def process_large_message (encode : List Char → Option WavFile)
    (message : List Char) (add_pauses : Bool) (pause_wav : WavFile) : ProcessResult :=
  let chunks := split_message message CHUNK_SIZE
  match encode_all encode chunks with
  | none => ProcessResult.failure
  | some wavs =>
    match combine_wav_files (files_to_combine add_pauses wavs pause_wav) with
    | none => ProcessResult.exception
    | some w => ProcessResult.success w

/-! ### Command-line entry -/

/-- The `PROTOCOLS` table (lines 25-38): id, name, description. -/
def PROTOCOLS : List (Nat × String × String) := [
  (0, "Normal", "Standard audible mode with good reliability"),
  (1, "Fast", "Faster audible mode with good reliability"),
  (2, "Fastest", "Fastest audible mode with reduced reliability"),
  (3, "[U] Normal", "Standard ultrasound mode with good reliability"),
  (4, "[U] Fast", "Faster ultrasound mode with good reliability"),
  (5, "[U] Fastest", "Fastest ultrasound mode with reduced reliability"),
  (6, "[DT] Normal", "Standard dual-tone mode with good reliability"),
  (7, "[DT] Fast", "Faster dual-tone mode with good reliability"),
  (8, "[DT] Fastest", "Fastest dual-tone mode with reduced reliability"),
  (9, "[MT] Normal", "Standard mono-tone mode with good reliability"),
  (10, "[MT] Fast", "Faster mono-tone mode with good reliability"),
  (11, "[MT] Fastest", "Fastest mono-tone mode with reduced reliability")]

/-- Where `main` (lines 414-478) goes after argument parsing and before any
input is read: `--list-protocols` prints the table and exits 0 (lines
433-435); an out-of-range protocol id exits 1 (lines 437-440); any other
configuration reads the input (lines 446-452) and runs the pipeline. -/
inductive MainRoute where
  | exit_list_protocols
  | exit_invalid_protocol
  | run_pipeline
deriving DecidableEq, Repr

/-- The routing of `main`: the validation `args.protocol < 0 or args.protocol
>= len(PROTOCOLS)` at line 438 runs before the input is read and before any
encoding or file output. -/
def main_route (list_protocols : Bool) (protocol : Int) : MainRoute :=
  if list_protocols then MainRoute.exit_list_protocols
  else if protocol < 0 ∨ (PROTOCOLS.length : Int) ≤ protocol then
    MainRoute.exit_invalid_protocol
  else MainRoute.run_pipeline

/-- The exit code decided before any input is read: `none` when `main`
continues into the pipeline (whose exit code then depends on its outcome,
line 478). -/
def early_exit_code : MainRoute → Option Nat
  | MainRoute.exit_list_protocols => some 0
  | MainRoute.exit_invalid_protocol => some 1
  | MainRoute.run_pipeline => none

/-- Whether a route reaches the input-reading step (lines 446-452). Only the
pipeline route does, and it is the only route that performs encoding work or
creates output files. -/
def route_reads_input : MainRoute → Bool
  | MainRoute.run_pipeline => true
  | _ => false

/-! ### Claim theorems for the WAV pipeline -/

theorem pyInt_bounds {x : ℚ} (h1 : -1 ≤ x) (h2 : x ≤ 1) :
    -32767 ≤ pyInt (x * 32767) ∧ pyInt (x * 32767) ≤ 32767 := by
  have hq1 : -32767 ≤ x * 32767 := by nlinarith
  have hq2 : x * 32767 ≤ 32767 := by nlinarith
  rw [pyInt]
  by_cases hneg : x * 32767 < 0
  · rw [if_pos hneg]
    constructor
    · have : ((-32767 : Int) : ℚ) ≤ x * 32767 := by exact_mod_cast hq1
      calc (-32767 : Int) = ⌈((-32767 : Int) : ℚ)⌉ := (Int.ceil_intCast _).symm
        _ ≤ ⌈x * 32767⌉ := Int.ceil_le_ceil this
    · have h0 : x * 32767 ≤ ((0 : Int) : ℚ) := by push_cast; linarith
      have : ⌈x * 32767⌉ ≤ 0 := Int.ceil_le.mpr h0
      omega
  · rw [if_neg hneg]
    push_neg at hneg
    constructor
    · have : 0 ≤ ⌊x * 32767⌋ := Int.floor_nonneg.mpr hneg
      omega
    · have : ⌊x * 32767⌋ ≤ ⌊((32767 : Int) : ℚ)⌋ := Int.floor_le_floor (by exact_mod_cast hq2)
      rwa [Int.floor_intCast] at this

theorem int16Wrap_eq_self {t : Int} (h1 : -32768 ≤ t) (h2 : t ≤ 32767) :
    int16Wrap t = t := by
  rw [int16Wrap, Int.emod_eq_of_lt (by omega) (by omega)]
  omega

/-- C3 counterexample: at the sample value 2 (exactly representable in
float32, with an exactly representable product 2 * 32767 = 65534), the code's
conversion wraps around to -2 where the clamping conversion the claim
describes yields 32767, so the WAV written by the module strategy differs
from the clamped one. -/
theorem C3_counterexample :
    module_wav [2] 48000 ≠ module_wav_clamped [2] 48000 ∧
    sampleToInt16 2 = -2 ∧ sampleToInt16Clamped 2 = 32767 := by
  have hcast : ((2 : ℚ) * 32767) = ((65534 : Int) : ℚ) := by norm_num
  have hpy : pyInt ((2 : ℚ) * 32767) = 65534 := by
    rw [pyInt, hcast, if_neg (by norm_num), Int.floor_intCast]
  have h1 : sampleToInt16 2 = -2 := by
    rw [sampleToInt16, hpy, int16Wrap]
    decide
  have h2 : sampleToInt16Clamped 2 = 32767 := by
    rw [sampleToInt16Clamped, hpy]
    decide
  refine ⟨?_, h1, h2⟩
  simp only [module_wav, module_wav_clamped, List.map_cons, List.map_nil, h1, h2]
  decide

/-- C3 amended: the module strategy writes a mono 16-bit WAV at the requested
sample rate whose data is the little-endian int16 encoding of each sample
scaled by 32767 under a truncating, wrapping cast — not a clamping one; for
waveforms whose samples lie in [-1, 1], no wrap-around occurs (all converted
values stay within [-32767, 32767]) and the written WAV coincides with the
clamping conversion the spec describes. -/
theorem C3_module_wav_in_range (waveform : List ℚ) (sample_rate : Nat)
    (hrange : ∀ x ∈ waveform, -1 ≤ x ∧ x ≤ 1) :
    (module_wav waveform sample_rate).params = ⟨1, 2, sample_rate⟩ ∧
    (∀ x ∈ waveform, -32767 ≤ sampleToInt16 x ∧ sampleToInt16 x ≤ 32767) ∧
    module_wav waveform sample_rate = module_wav_clamped waveform sample_rate := by
  have hsample : ∀ x ∈ waveform,
      sampleToInt16 x = pyInt (x * 32767) ∧
      sampleToInt16Clamped x = pyInt (x * 32767) := by
    intro x hx
    obtain ⟨hb1, hb2⟩ := pyInt_bounds (hrange x hx).1 (hrange x hx).2
    constructor
    · rw [sampleToInt16, int16Wrap_eq_self (by omega) (by omega)]
    · rw [sampleToInt16Clamped]
      omega
  refine ⟨rfl, ?_, ?_⟩
  · intro x hx
    obtain ⟨hb1, hb2⟩ := pyInt_bounds (hrange x hx).1 (hrange x hx).2
    rw [(hsample x hx).1]
    omega
  · rw [module_wav, module_wav_clamped]
    have : waveform.map (fun x => int16Bytes (sampleToInt16 x)) =
        waveform.map (fun x => int16Bytes (sampleToInt16Clamped x)) := by
      apply List.map_congr_left
      intro x hx
      rw [(hsample x hx).1, (hsample x hx).2]
    rw [this]

/-- C3 witness: a concrete in-range waveform. -/
theorem C3_module_wav_in_range_witness :
    (∀ x ∈ ([1, -1, 0] : List ℚ), -1 ≤ x ∧ x ≤ 1) ∧
    ((module_wav [1, -1, 0] 48000).params = ⟨1, 2, 48000⟩ ∧
    (∀ x ∈ ([1, -1, 0] : List ℚ),
      -32767 ≤ sampleToInt16 x ∧ sampleToInt16 x ≤ 32767) ∧
    module_wav [1, -1, 0] 48000 = module_wav_clamped [1, -1, 0] 48000) :=
  ⟨by decide, C3_module_wav_in_range [1, -1, 0] 48000 (by decide)⟩

/-- C4 counterexample: with the default configured timeout of 30 seconds, the
binary strategy's external encoder invocation runs with the hardcoded
10-second `subprocess.run` timeout, not the configured value. -/
theorem C4_counterexample :
    enforced_timeout
      (generate_wav_for_chunk false [] [] 5 50 48000 false 30) ≠ 30 := by
  decide

/-- C4 amended: `generate_wav_for_chunk` accepts the configured timeout and
forwards it to the module strategy, which arms `signal.alarm` with exactly
that value; the binary strategy is invoked without the configured timeout and
its `subprocess.run` call enforces a fixed 10-second timeout instead. -/
theorem C4_timeout_dispatch (chunk output_file : List Char)
    (protocol volume sample_rate : Nat) (quiet : Bool) (timeout : Nat) :
    enforced_timeout (generate_wav_for_chunk true chunk output_file protocol
      volume sample_rate quiet timeout) = timeout ∧
    enforced_timeout (generate_wav_for_chunk false chunk output_file protocol
      volume sample_rate quiet timeout) = 10 :=
  ⟨rfl, rfl⟩

theorem interleaved_files_intersperse {α : Type} (l : List α) (s : α) :
    interleaved_files l s = l.intersperse s := by
  induction l with
  | nil => rfl
  | cons f rest ih =>
    cases rest with
    | nil => rfl
    | cons g gs =>
      rw [interleaved_files, List.intersperse_cons₂, ih]

theorem interleaved_files_ne_nil {α : Type} (g : α) (gs : List α) (s : α) :
    interleaved_files (g :: gs) s ≠ [] := by
  cases gs <;> simp [interleaved_files]

theorem interleaved_files_count {α : Type} [DecidableEq α] (l : List α) (s : α)
    (h : s ∉ l) : (interleaved_files l s).count s = l.length - 1 := by
  induction l with
  | nil => rfl
  | cons f rest ih =>
    have hsf : s ≠ f := fun he => h (he ▸ List.mem_cons_self f rest)
    have hrest : s ∉ rest := fun hm => h (List.mem_cons_of_mem f hm)
    cases rest with
    | nil =>
      rw [interleaved_files]
      simp [List.count_cons, hsf]
    | cons g gs =>
      rw [interleaved_files]
      rw [List.count_cons, List.count_cons, ih hrest]
      simp only [List.length_cons]
      have h2 : (f == s) = false := beq_eq_false_iff_ne.mpr (fun he => hsf he.symm)
      rw [h2]
      simp

theorem interleaved_files_last {α : Type} (l : List α) (s : α) :
    (interleaved_files l s).getLast? = l.getLast? := by
  induction l with
  | nil => rfl
  | cons f rest ih =>
    cases rest with
    | nil => rfl
    | cons g gs =>
      rw [interleaved_files]
      obtain ⟨x, xs, hx⟩ :=
        List.exists_cons_of_ne_nil (interleaved_files_ne_nil g gs s)
      rw [hx]
      rw [List.getLast?_cons_cons, List.getLast?_cons_cons, ← hx, ih,
        List.getLast?_cons_cons]

/-- C5: with pauses enabled and more than one chunk, the file list passed to
the combiner places the silence file strictly between consecutive chunk
files (it equals `intersperse`), contains exactly N-1 silence entries, and
still ends with the last chunk file — no silence after the final chunk. -/
theorem C5_pause_interleaving {α : Type} [DecidableEq α] (chunk_files : List α)
    (silence_file : α) (hN : 1 < chunk_files.length)
    (hns : silence_file ∉ chunk_files) :
    files_to_combine true chunk_files silence_file =
      chunk_files.intersperse silence_file ∧
    (files_to_combine true chunk_files silence_file).count silence_file =
      chunk_files.length - 1 ∧
    (files_to_combine true chunk_files silence_file).getLast? =
      chunk_files.getLast? := by
  have hsel : files_to_combine true chunk_files silence_file =
      interleaved_files chunk_files silence_file := by
    rw [files_to_combine, if_pos ⟨rfl, hN⟩]
  refine ⟨?_, ?_, ?_⟩
  · rw [hsel, interleaved_files_intersperse]
  · rw [hsel, interleaved_files_count chunk_files silence_file hns]
  · rw [hsel, interleaved_files_last]

/-- C5 witness: three chunk files and a distinct silence file. -/
theorem C5_pause_interleaving_witness :
    (1 < ([0, 1, 2] : List Nat).length ∧ 9 ∉ ([0, 1, 2] : List Nat)) ∧
    (files_to_combine true ([0, 1, 2] : List Nat) 9 =
      ([0, 1, 2] : List Nat).intersperse 9 ∧
    (files_to_combine true ([0, 1, 2] : List Nat) 9).count 9 =
      ([0, 1, 2] : List Nat).length - 1 ∧
    (files_to_combine true ([0, 1, 2] : List Nat) 9).getLast? =
      ([0, 1, 2] : List Nat).getLast?) :=
  ⟨⟨by decide, by decide⟩, C5_pause_interleaving [0, 1, 2] 9 (by decide) (by decide)⟩

theorem sum_div_of_all_dvd (w : Nat) (ls : List Nat) (h : ∀ a ∈ ls, w ∣ a) :
    ls.sum / w = (ls.map (fun a => a / w)).sum := by
  induction ls with
  | nil => simp
  | cons a as ih =>
    rw [List.sum_cons, List.map_cons, List.sum_cons,
      Nat.add_div_of_dvd_right (h a (List.mem_cons_self a as)),
      ih (fun b hb => h b (List.mem_cons_of_mem a hb))]

/-- C6: combining a non-empty list of same-format WAV files whose data is
whole frames succeeds, takes the first file's format parameters, and writes
the concatenation of all inputs' frame data in input order, so the output's
frame count is the sum of the inputs' frame counts. -/
theorem C6_combine_wav_files (f : WavFile) (rest : List WavFile)
    (hfmt : ∀ g ∈ f :: rest, g.params = f.params)
    (hframes : ∀ g ∈ f :: rest,
      (f.params.nchannels * f.params.sampwidth) ∣ g.data.length) :
    ∃ out, combine_wav_files (f :: rest) = some out ∧
      out.params = f.params ∧
      out.data = ((f :: rest).map WavFile.data).flatten ∧
      out.nframes = ((f :: rest).map WavFile.nframes).sum := by
  refine ⟨⟨f.params, ((f :: rest).map WavFile.data).flatten⟩, rfl, rfl, rfl, ?_⟩
  rw [WavFile.nframes]
  simp only
  rw [List.length_flatten, List.map_map]
  have hnf : (f :: rest).map WavFile.nframes =
      (f :: rest).map (fun g => g.data.length /
        (f.params.nchannels * f.params.sampwidth)) := by
    apply List.map_congr_left
    intro g hg
    rw [WavFile.nframes, hfmt g hg]
  rw [hnf]
  have hdvd : ∀ a ∈ (f :: rest).map (fun g => g.data.length),
      (f.params.nchannels * f.params.sampwidth) ∣ a := by
    intro a ha
    obtain ⟨g, hg, rfl⟩ := List.mem_map.mp ha
    exact hframes g hg
  have := sum_div_of_all_dvd (f.params.nchannels * f.params.sampwidth)
    ((f :: rest).map (fun g => g.data.length)) hdvd
  rw [List.map_map] at this
  exact this.trans (by rw [Function.comp_def])

/-- C6 witness: two same-format files of 2 and 1 frames combine to 3 frames. -/
theorem C6_combine_wav_files_witness :
    ((∀ g ∈ [(⟨⟨1, 2, 8000⟩, [1, 2, 3, 4]⟩ : WavFile), ⟨⟨1, 2, 8000⟩, [5, 6]⟩],
        g.params = (⟨⟨1, 2, 8000⟩, [1, 2, 3, 4]⟩ : WavFile).params) ∧
      (∀ g ∈ [(⟨⟨1, 2, 8000⟩, [1, 2, 3, 4]⟩ : WavFile), ⟨⟨1, 2, 8000⟩, [5, 6]⟩],
        ((⟨⟨1, 2, 8000⟩, [1, 2, 3, 4]⟩ : WavFile).params.nchannels *
          (⟨⟨1, 2, 8000⟩, [1, 2, 3, 4]⟩ : WavFile).params.sampwidth) ∣
          g.data.length)) ∧
    ∃ out, combine_wav_files
        [(⟨⟨1, 2, 8000⟩, [1, 2, 3, 4]⟩ : WavFile), ⟨⟨1, 2, 8000⟩, [5, 6]⟩] =
        some out ∧
      out.params = (⟨⟨1, 2, 8000⟩, [1, 2, 3, 4]⟩ : WavFile).params ∧
      out.data = ([(⟨⟨1, 2, 8000⟩, [1, 2, 3, 4]⟩ : WavFile),
        ⟨⟨1, 2, 8000⟩, [5, 6]⟩].map WavFile.data).flatten ∧
      out.nframes = ([(⟨⟨1, 2, 8000⟩, [1, 2, 3, 4]⟩ : WavFile),
        ⟨⟨1, 2, 8000⟩, [5, 6]⟩].map WavFile.nframes).sum :=
  ⟨⟨by decide, by decide⟩,
    C6_combine_wav_files ⟨⟨1, 2, 8000⟩, [1, 2, 3, 4]⟩ [⟨⟨1, 2, 8000⟩, [5, 6]⟩]
      (by decide) (by decide)⟩

/-- C7 counterexample: at duration 1/2 s and rate 3, the code writes
`int(1.5) = 1` frame, so no WAV whose frame count equals D*R = 3/2 exists:
the claim fails whenever D*R is not an integer. -/
theorem C7_counterexample :
    ¬ ∃ w, create_silence_wav (1 / 2 : ℚ) 3 = some w ∧
      w.params = ⟨1, 2, 3⟩ ∧ ((w.nframes : ℚ) = (1 / 2 : ℚ) * 3) ∧
      ∀ b ∈ w.data, b = 0 := by
  rintro ⟨w, hw, -, hn, -⟩
  have hpy : pyInt ((1 / 2 : ℚ) * ((3 : Nat) : ℚ)) = 1 := by
    have hq : ((1 / 2 : ℚ) * ((3 : Nat) : ℚ)) = 3 / 2 := by push_cast; norm_num
    rw [pyInt, if_neg (by rw [hq]; norm_num), hq]
    norm_num
  have hv : create_silence_wav (1 / 2 : ℚ) 3 = some ⟨⟨1, 2, 3⟩, [0, 0]⟩ := by
    rw [create_silence_wav]
    simp only [hpy]
    rfl
  rw [hv] at hw
  obtain rfl := Option.some_injective _ hw
  rw [WavFile.nframes] at hn
  norm_num at hn

/-- C7 amended: for every duration D ≥ 0 and rate R, `create_silence_wav`
writes a mono 16-bit WAV of exactly `int(D*R)` (truncated) all-zero samples;
the sample count equals D*R exactly when D*R is an integer — in particular
for every integer duration. -/
theorem C7_silence_wav (D : ℚ) (R : Nat) (hD : 0 ≤ D) :
    ∃ w, create_silence_wav D R = some w ∧
      w.params = ⟨1, 2, R⟩ ∧
      w.nframes = (pyInt (D * R)).toNat ∧
      (∀ b ∈ w.data, b = 0) ∧
      ((D * (R : ℚ)).den = 1 → (w.nframes : ℚ) = D * R) := by
  have hq : 0 ≤ D * (R : ℚ) := mul_nonneg hD (by positivity)
  have hpy : pyInt (D * R) = ⌊D * (R : ℚ)⌋ := by
    rw [pyInt, if_neg (not_lt.mpr hq)]
  have hnn : 0 ≤ ⌊D * (R : ℚ)⌋ := Int.floor_nonneg.mpr hq
  have hnf : (⟨⟨1, 2, R⟩, List.replicate ((pyInt (D * R)).toNat * 2) 0⟩ :
      WavFile).nframes = (pyInt (D * R)).toNat := by
    rw [WavFile.nframes]
    simp only [List.length_replicate]
    omega
  refine ⟨⟨⟨1, 2, R⟩, List.replicate ((pyInt (D * R)).toNat * 2) 0⟩,
    ?_, rfl, hnf, ?_, ?_⟩
  · have hbody : create_silence_wav D R =
        if pyInt (D * (R : ℚ)) < 0 then none
        else some ⟨⟨1, 2, R⟩, List.replicate ((pyInt (D * (R : ℚ))).toNat * 2) 0⟩ :=
      rfl
    rw [hbody, if_neg (by rw [hpy]; omega)]
  · intro b hb
    exact List.eq_of_mem_replicate hb
  · intro hden
    have hnum : ((D * (R : ℚ)).num : ℚ) = D * R := (Rat.den_eq_one_iff _).mp hden
    have hfl : ⌊D * (R : ℚ)⌋ = (D * (R : ℚ)).num := by
      conv_lhs => rw [← hnum]
      rw [Int.floor_intCast]
    have hnum0 : 0 ≤ (D * (R : ℚ)).num := Rat.num_nonneg.mpr hq
    rw [hnf, hpy, hfl, ← hnum]
    exact_mod_cast congrArg (fun z : Int => (z : ℚ)) (Int.toNat_of_nonneg hnum0)

/-- C7 witness: one second at rate 4 gives exactly 4 zero samples. -/
theorem C7_silence_wav_witness :
    (0 : ℚ) ≤ 1 ∧
    ∃ w, create_silence_wav (1 : ℚ) 4 = some w ∧
      w.params = ⟨1, 2, 4⟩ ∧
      w.nframes = (pyInt ((1 : ℚ) * 4)).toNat ∧
      (∀ b ∈ w.data, b = 0) ∧
      (((1 : ℚ) * (4 : ℚ)).den = 1 → (w.nframes : ℚ) = (1 : ℚ) * 4) :=
  ⟨by norm_num, C7_silence_wav 1 4 (by norm_num)⟩

/-- C8: without `--list-protocols`, every protocol id outside 0..11 routes
`main` to the invalid-protocol exit: exit code 1, decided before the input
is read, before any encoding work, and before any output file could be
created (only the pipeline route does any of those). -/
theorem C8_invalid_protocol (p : Int) (h : p < 0 ∨ 11 < p) :
    main_route false p = MainRoute.exit_invalid_protocol ∧
    early_exit_code (main_route false p) = some 1 ∧
    route_reads_input (main_route false p) = false := by
  have hlen : (PROTOCOLS.length : Int) = 12 := by decide
  have hc : p < 0 ∨ (PROTOCOLS.length : Int) ≤ p := by rw [hlen]; omega
  have hroute : main_route false p = MainRoute.exit_invalid_protocol := by
    rw [main_route, if_neg (by simp), if_pos hc]
  refine ⟨hroute, ?_, ?_⟩
  · rw [hroute]; rfl
  · rw [hroute]; rfl

/-- C8 witness: protocol id 12. -/
theorem C8_invalid_protocol_witness :
    ((12 : Int) < 0 ∨ 11 < (12 : Int)) ∧
    (main_route false 12 = MainRoute.exit_invalid_protocol ∧
      early_exit_code (main_route false 12) = some 1 ∧
      route_reads_input (main_route false 12) = false) :=
  ⟨by decide, C8_invalid_protocol 12 (by decide)⟩

/-- C10: `combine_wav_files` applied to an empty file list leaves its format
parameters unset and raises (modelled as `none`); consequently, for an empty
input message — zero chunks — `process_large_message` ends in an unhandled
exception instead of returning a success/failure boolean, for every encoder,
pause setting and silence file, and no combined output WAV exists. -/
theorem C10_empty_message_exception (encode : List Char → Option WavFile)
    (add_pauses : Bool) (pause_wav : WavFile) :
    combine_wav_files ([] : List WavFile) = none ∧
    process_large_message encode [] add_pauses pause_wav =
      ProcessResult.exception := by
  refine ⟨rfl, ?_⟩
  have hsplit : split_message [] CHUNK_SIZE = [] := by
    rw [split_message, replaceNewlines]
    simp only [List.map_nil]
    rw [splitGo]
  have hfiles : files_to_combine add_pauses ([] : List WavFile) pause_wav = [] := by
    rw [files_to_combine, if_neg]
    rintro ⟨-, h2⟩
    simp at h2
  rw [process_large_message]
  simp only [hsplit, encode_all, hfiles, combine_wav_files]

end GgwaveLargeMessage
